import Mathlib

/-!
Shallow embedding of the Tracer-X KLEE dependency / shadow-store core,
from the headers `Dependency.h` and `TxStore.h`.

Program values, instructions, functions and arrays are opaque identifiers
supplied by the external program representation; we model each of them as a
natural number.  The C++ static version counters (`nextVersion`) are modelled
as explicit counter state threaded through the constructing operations, and
the reference-counted sharing of `TxStoreEntry` objects is modelled with an
explicit entry heap (a list of entries indexed by position) so that `refCount`
updates are observable.
-/

/-- Canonical interpolant-style address key (`ref<TxVariable>` in the source). -/
abbrev TxVariable := Nat

/-- Modelled from the spec: `TxStateValue` (declared in the absent
`TxValues.h`).  A state value carries its opaque identifier and the flag
telling whether its content is relevant to the current unsatisfiability core
(used by the `coreOnly` filtering of `getStoredExpressions`). -/
structure TxStateValue where
  ident : Nat
  core : Bool
  deriving DecidableEq, Repr

/-- Modelled from the spec: `TxStateAddress` (declared in the absent
`TxValues.h`).  An address knows the defining program entity it comes from
(`base`, the outer key of `TopInterpolantStore`), its interpolant-style
canonical key, and whether it is concretely determined (which of the two
store partitions it belongs to). -/
structure TxStateAddress where
  base : Nat
  interpolantStyleAddress : TxVariable
  concrete : Bool
  deriving DecidableEq, Repr

/-- Source: `TxStateAddress::getInterpolantStyleAddress()`. -/
def TxStateAddress.getInterpolantStyleAddress (a : TxStateAddress) : TxVariable :=
  a.interpolantStyleAddress

/-- Source: `TxStoreEntry` from `TxStore.h`: a reference-counted record of an
address, the value acting as the address, and the stored content. -/
structure TxStoreEntry where
  refCount : Nat
  address : TxStateAddress
  addressValue : TxStateValue
  content : TxStateValue
  deriving DecidableEq, Repr

/-- The `TxStoreEntry` constructor: `refCount(0), address(_address),
addressValue(_addressValue), content(_content)`. -/
def TxStoreEntry.make (a : TxStateAddress) (av v : TxStateValue) : TxStoreEntry :=
  { refCount := 0, address := a, addressValue := av, content := v }

/-- Source: `TxStoreEntry::getIndex()`, `address->getInterpolantStyleAddress()`. -/
def TxStoreEntry.getIndex (e : TxStoreEntry) : TxVariable :=
  e.address.getInterpolantStyleAddress

/-- Source: `TxStoreEntry::getAddress()`. -/
def TxStoreEntry.getAddress (e : TxStoreEntry) : TxStateAddress := e.address

/-- Source: `TxStoreEntry::getAddressValue()`. -/
def TxStoreEntry.getAddressValue (e : TxStoreEntry) : TxStateValue := e.addressValue

/-- Source: `TxStoreEntry::getContent()`. -/
def TxStoreEntry.getContent (e : TxStoreEntry) : TxStateValue := e.content

/-- The shared-entry heap: `ref<TxStoreEntry>` objects are shared by
reference between stores, so stores hold heap indices and the entries
themselves (with their `refCount` fields) live here. -/
abbrev EntryHeap := List TxStoreEntry

/-- A `StateStore` (`std::map<ref<TxVariable>, ref<TxStoreEntry>>`),
modelled as an association list from canonical key to heap index. -/
abbrev StateStore := List (TxVariable × Nat)

/-- Source: `TxStore` from `TxStore.h`: the two address-partitioned maps, each
paired with its insertion-ordered key vector. -/
structure TxStore where
  concretelyAddressedStore : StateStore
  concretelyAddressedStoreKeys : List TxVariable
  symbolicallyAddressedStore : StateStore
  symbolicallyAddressedStoreKeys : List TxVariable
  deriving DecidableEq, Repr

/-- The `TxStore()` default constructor: an empty store. -/
def TxStore.empty : TxStore := ⟨[], [], [], []⟩

/-- Source: `TxStore::concreteFind(loc)`,
`concretelyAddressedStore.find(loc->getInterpolantStyleAddress())`.
Returns the heap index of the entry, or `none` for the end iterator. -/
def TxStore.concreteFind (s : TxStore) (loc : TxStateAddress) : Option Nat :=
  s.concretelyAddressedStore.lookup loc.getInterpolantStyleAddress

/-- Source: `TxStore::symbolicFind(loc)`,
`symbolicallyAddressedStore.find(loc->getInterpolantStyleAddress())`. -/
def TxStore.symbolicFind (s : TxStore) (loc : TxStateAddress) : Option Nat :=
  s.symbolicallyAddressedStore.lookup loc.getInterpolantStyleAddress

/-- C10: a `TxStoreEntry` constructed from `(address, addressValue, content)`
starts with `refCount = 0`; `getAddress`, `getAddressValue` and `getContent`
return exactly the construction arguments; `getIndex` returns the address's
interpolant-style canonical key, which is the same key `concreteFind` and
`symbolicFind` look up in their respective maps. -/
theorem txStoreEntry_construction_accessors
    (a : TxStateAddress) (av v : TxStateValue) (s : TxStore) :
    (TxStoreEntry.make a av v).refCount = 0 ∧
    (TxStoreEntry.make a av v).getAddress = a ∧
    (TxStoreEntry.make a av v).getAddressValue = av ∧
    (TxStoreEntry.make a av v).getContent = v ∧
    (TxStoreEntry.make a av v).getIndex = a.getInterpolantStyleAddress ∧
    s.concreteFind a =
      s.concretelyAddressedStore.lookup (TxStoreEntry.make a av v).getIndex ∧
    s.symbolicFind a =
      s.symbolicallyAddressedStore.lookup (TxStoreEntry.make a av v).getIndex :=
  ⟨rfl, rfl, rfl, rfl, rfl, rfl, rfl⟩

/-- The member-initializer list of the `TxStore` copy constructor:
`concretelyAddressedStore(src.concretelyAddressedStore),
symbolicallyAddressedStore(src.symbolicallyAddressedStore)`.  The two key
vectors are not named in the initializer list, so they are
default-constructed (empty) in the copy. -/
def TxStore.copyFields (src : TxStore) : TxStore :=
  { concretelyAddressedStore := src.concretelyAddressedStore
    concretelyAddressedStoreKeys := []
    symbolicallyAddressedStore := src.symbolicallyAddressedStore
    symbolicallyAddressedStoreKeys := [] }

/-- Increment the `refCount` of the heap entry at index `i` (the effect of
copy-constructing one `ref<TxStoreEntry>` handle onto that entry). -/
def bumpAt (h : EntryHeap) (i : Nat) : EntryHeap :=
  match h.get? i with
  | some e => h.set i { e with refCount := e.refCount + 1 }
  | none => h

/-- The heap indices referenced by a store's two maps, one occurrence per
map element (copying a `std::map` of `ref<TxStoreEntry>` copy-constructs
one `ref` per element). -/
def TxStore.sharedIndices (src : TxStore) : List Nat :=
  src.concretelyAddressedStore.map Prod.snd ++
    src.symbolicallyAddressedStore.map Prod.snd

/-- Source: `TxStore::TxStore(const TxStore &src)`, duplicates the two maps sharing
the entries; the `refCount` increment per shared handle is modelled from the
spec (the `ref<>` smart-pointer class lives outside the given sources), and
the key vectors are left default-constructed as in the initializer list. -/
def TxStore.copyCtor (src : TxStore) (heap : EntryHeap) : TxStore × EntryHeap :=
  (TxStore.copyFields src, src.sharedIndices.foldl bumpAt heap)

/-- Replace the binding of key `k` in place if present (reusing its
position), otherwise append the new binding, as `std::map::operator[]`
does for `StateStore`. -/
def storeBind (m : StateStore) (k : TxVariable) (i : Nat) : StateStore :=
  match m with
  | [] => [(k, i)]
  | (k', i') :: rest =>
      if k' = k then (k, i) :: rest else (k', i') :: storeBind rest k i

/-- Append `k` to the key vector only when it is not already present, so
overwriting an existing key reuses its key-order position. -/
def keysInsert (ks : List TxVariable) (k : TxVariable) : List TxVariable :=
  if ks.contains k then ks else ks ++ [k]

/-- Modelled from the spec: `TxStore::updateStore(loc, address, value)`
(its definition lives in the absent `TxStore.cpp`).  It constructs a fresh
`TxStoreEntry{loc, address, value}` and inserts or overwrites it under the
canonical key of `loc` in the concrete or symbolic map, chosen by whether
`loc` is concretely determined; overwriting reuses the key-order position
(no duplicate key-list entries). -/
def TxStore.updateStore (s : TxStore) (heap : EntryHeap) (loc : TxStateAddress)
    (address value : TxStateValue) : TxStore × EntryHeap :=
  let k := loc.getInterpolantStyleAddress
  let i := heap.length
  let heap' := heap ++ [TxStoreEntry.make loc address value]
  if loc.concrete then
    ({ s with
        concretelyAddressedStore := storeBind s.concretelyAddressedStore k i
        concretelyAddressedStoreKeys :=
          keysInsert s.concretelyAddressedStoreKeys k }, heap')
  else
    ({ s with
        symbolicallyAddressedStore := storeBind s.symbolicallyAddressedStore k i
        symbolicallyAddressedStoreKeys :=
          keysInsert s.symbolicallyAddressedStoreKeys k }, heap')

/-- Modelled from the spec: `TxStore::updateStoreWithLoadedValue` records the
loaded value through the same underlying map semantics as `updateStore`. -/
def TxStore.updateStoreWithLoadedValue (s : TxStore) (heap : EntryHeap)
    (loc : TxStateAddress) (address value : TxStateValue) : TxStore × EntryHeap :=
  s.updateStore heap loc address value

/-- Look up the content stored for `loc`, through the map matching `loc`'s
concreteness (the map `updateStore` writes to) and the shared entry heap. -/
def TxStore.lookupContent (s : TxStore) (heap : EntryHeap)
    (loc : TxStateAddress) : Option TxStateValue :=
  let m := if loc.concrete then s.concretelyAddressedStore
           else s.symbolicallyAddressedStore
  match m.lookup loc.getInterpolantStyleAddress with
  | some i => (heap.get? i).map TxStoreEntry.content
  | none => none

/-- The key list that `updateStore` maintains for `loc`'s partition. -/
def TxStore.keysFor (s : TxStore) (loc : TxStateAddress) : List TxVariable :=
  if loc.concrete then s.concretelyAddressedStoreKeys
  else s.symbolicallyAddressedStoreKeys

/-- Modelled from the spec: the key structure of
`TxStore::getConcreteStore` as called from `getStoredExpressions` (defined
in the absent `TxStore.cpp`).  Each live entry of the concretely-addressed
map is emitted under the outer key of its address's defining program entity
and the inner call-history-qualified canonical variable; when `coreOnly` is
set, entries whose content is not flagged as relevant to the current
unsatisfiability core are omitted.  (`replacements` only collects and
substitutes array identifiers inside the emitted value expressions, so it
does not influence the keys.) -/
def TxStore.getConcreteStoreKeys (s : TxStore) (heap : EntryHeap)
    (callHistory : List Nat) (replacements : List Nat) (coreOnly : Bool) :
    List (Nat × (List Nat × TxVariable)) :=
  s.concretelyAddressedStore.filterMap fun kv =>
    match heap.get? kv.2 with
    | some e =>
        if coreOnly && !e.content.core then none
        else some (e.address.base, (callHistory, kv.1))
    | none => none

/-- Modelled from the spec: the key structure of `TxStore::getSymbolicStore`,
symmetric to `getConcreteStoreKeys`. -/
def TxStore.getSymbolicStoreKeys (s : TxStore) (heap : EntryHeap)
    (callHistory : List Nat) (replacements : List Nat) (coreOnly : Bool) :
    List (Nat × (List Nat × TxVariable)) :=
  s.symbolicallyAddressedStore.filterMap fun kv =>
    match heap.get? kv.2 with
    | some e =>
        if coreOnly && !e.content.core then none
        else some (e.address.base, (callHistory, kv.1))
    | none => none

/-- Modelled from the spec: `TxStore::getStoredExpressions` returns the pair
of the concretely-addressed and symbolically-addressed interpolant stores
(here, their key structure). -/
def TxStore.getStoredExpressionsKeys (s : TxStore) (heap : EntryHeap)
    (callHistory : List Nat) (replacements : List Nat) (coreOnly : Bool) :
    List (Nat × (List Nat × TxVariable)) × List (Nat × (List Nat × TxVariable)) :=
  (s.getConcreteStoreKeys heap callHistory replacements coreOnly,
   s.getSymbolicStoreKeys heap callHistory replacements coreOnly)

/-- Source: `VersionedValue` from `Dependency.h`: one dynamic incarnation of a
program value, identified by `(value, version)`. -/
structure VersionedValue where
  value : Nat
  version : Nat
  deriving DecidableEq, Repr

/-- Source: `VersionedAllocation` from `Dependency.h`: one dynamic incarnation of a
static allocation site, identified by `(site, version)`. -/
structure VersionedAllocation where
  site : Nat
  version : Nat
  deriving DecidableEq, Repr

/-- Source: `PointerEquality` from `Dependency.h`: the recorded value's runtime
content equals the address of the recorded allocation. -/
structure PointerEquality where
  value : VersionedValue
  allocation : VersionedAllocation
  deriving DecidableEq, Repr

/-- Modelled from the spec: `PointerEquality::equals(value)` (defined in the
absent `Dependency.cpp`) returns the recorded allocation when the queried
value is the recorded one and the null sentinel otherwise. -/
def PointerEquality.equals (pe : PointerEquality) (v : VersionedValue) :
    Option VersionedAllocation :=
  if pe.value = v then some pe.allocation else none

/-- Source: `StorageCell` from `Dependency.h`: the recorded allocation currently
holds the recorded value as content. -/
structure StorageCell where
  allocation : VersionedAllocation
  value : VersionedValue
  deriving DecidableEq, Repr

/-- Source: `FlowsTo` from `Dependency.h`: `target` data-depends on `source`. -/
structure FlowsTo where
  source : VersionedValue
  target : VersionedValue
  deriving DecidableEq, Repr

/-- One `Dependency` object's own record lists (without the `tail` link):
the per-frame accumulator of relation records and entity registries. -/
structure DependencyFrame where
  argumentValuesList : List VersionedValue
  callee : Option Nat
  equalityList : List PointerEquality
  storesList : List StorageCell
  flowsToList : List FlowsTo
  valuesList : List VersionedValue
  allocationsList : List VersionedAllocation
  deriving DecidableEq, Repr

/-- The empty frame created by `Dependency(prev)`. -/
def DependencyFrame.empty : DependencyFrame := ⟨[], none, [], [], [], [], []⟩

/-- A `Dependency` chain: the current frame followed by the frames reached
through the `tail` pointers. -/
abbrev DependencyChain := List DependencyFrame

/-- All `FlowsTo` records of a frame chain. -/
def allFlowsTo (c : DependencyChain) : List FlowsTo :=
  (c.map DependencyFrame.flowsToList).flatten

/-- All `PointerEquality` records of a frame chain. -/
def allEqualities (c : DependencyChain) : List PointerEquality :=
  (c.map DependencyFrame.equalityList).flatten

/-- All `StorageCell` records of a frame chain. -/
def allStores (c : DependencyChain) : List StorageCell :=
  (c.map DependencyFrame.storesList).flatten

/-- A nonempty directed path of `FlowsTo` edges from `a` to `b`: the
transitive closure that `Dependency::depends` searches. -/
inductive FlowPath (es : List FlowsTo) : VersionedValue → VersionedValue → Prop
  | single {a b : VersionedValue} (h : FlowsTo.mk a b ∈ es) : FlowPath es a b
  | cons {a b c : VersionedValue} (h : FlowsTo.mk a b ∈ es)
      (p : FlowPath es b c) : FlowPath es a c

/-- Modelled from the spec: the traversal of `Dependency::depends` (defined
in the absent `Dependency.cpp`), as a fuel-bounded depth-first search over
the `FlowsTo` edges: `depends(source, target)` holds when some edge leaves
`source` and either reaches `target` or reaches a value from which the
search (with one unit of fuel spent) reaches `target`. -/
def dependsFuel (es : List FlowsTo) : Nat → VersionedValue → VersionedValue → Bool
  | 0, _, _ => false
  | n + 1, a, b =>
      es.any fun e =>
        e.source = a && (e.target = b || dependsFuel es n e.target b)

/-- The largest version number appearing on any edge endpoint. -/
def maxVersion (es : List FlowsTo) : Nat :=
  es.foldr (fun e m => max (max e.source.version e.target.version) m) 0

/-- Every `FlowsTo` edge points from a strictly lower version to a strictly
higher version (the invariant the spec asserts of recorded edges). -/
def versionOrdered (es : List FlowsTo) : Bool :=
  es.all fun e => e.source.version < e.target.version

/-- The traversal of `Dependency::depends` over a frame chain, with enough fuel to explore
every version-ordered path. -/
def chainDepends (c : DependencyChain) (a b : VersionedValue) : Bool :=
  dependsFuel (allFlowsTo c) (maxVersion (allFlowsTo c) + 1) a b

/-- The successor relation the `depends` traversal recurses along:
`stepRel es b a` holds when an edge of `es` leads from `a` to `b`. -/
def stepRel (es : List FlowsTo) (b a : VersionedValue) : Prop :=
  FlowsTo.mk a b ∈ es

/-- The dependency-tracking state: the two static `nextVersion` counters of
`VersionedValue` and `VersionedAllocation` made explicit, the current
`Dependency` frame, and the frames reached through its `tail` chain. -/
structure DepState where
  valueCounter : Nat
  allocCounter : Nat
  cur : DependencyFrame
  tail : List DependencyFrame
  deriving DecidableEq, Repr

/-- The frame chain of a state: the current frame then its `tail` chain. -/
def DepState.chain (s : DepState) : DependencyChain := s.cur :: s.tail

/-- The initial state: one root frame (`Dependency(0)`), fresh counters. -/
def DepState.init : DepState := ⟨0, 0, DependencyFrame.empty, []⟩

/-- The constructor `Dependency(prev)`: push a new empty frame chained to the previous
state's frames. -/
def DepState.pushFrame (s : DepState) : DepState :=
  { s with cur := DependencyFrame.empty, tail := s.cur :: s.tail }

/-- Modelled from the spec: `Dependency::getNewValue(value)` (defined in the
absent `Dependency.cpp`) constructs a `VersionedValue` carrying the current
value of the static `nextVersion` counter, increments the counter, and
registers the new value in the current frame's `valuesList`. -/
def DepState.getNewValue (s : DepState) (id : Nat) : VersionedValue × DepState :=
  let v : VersionedValue := ⟨id, s.valueCounter⟩
  (v, { s with
          valueCounter := s.valueCounter + 1
          cur := { s.cur with valuesList := v :: s.cur.valuesList } })

/-- Modelled from the spec: `Dependency::getNewAllocation(allocation)`
constructs a `VersionedAllocation` from its own independent `nextVersion`
counter and registers it in the current frame's `allocationsList`. -/
def DepState.getNewAllocation (s : DepState) (id : Nat) :
    VersionedAllocation × DepState :=
  let a : VersionedAllocation := ⟨id, s.allocCounter⟩
  (a, { s with
          allocCounter := s.allocCounter + 1
          cur := { s.cur with allocationsList := a :: s.cur.allocationsList } })

/-- Search the frames in order for the most recently registered value with
the given identifier. -/
def findValueIn (fs : List DependencyFrame) (id : Nat) : Option VersionedValue :=
  match fs with
  | [] => none
  | f :: rest =>
      match f.valuesList.find? (fun vv => vv.value == id) with
      | some v => some v
      | none => findValueIn rest id

/-- Modelled from the spec: `Dependency::getLatestValue(value)` returns the
most recent `VersionedValue` for the identifier, searching the current frame
then the `tail` chain, or the null sentinel when none exists. -/
def DepState.getLatestValue (s : DepState) (id : Nat) : Option VersionedValue :=
  findValueIn s.chain id

/-- Modelled from the spec: `Dependency::addDependency(source, target)`
records a `FlowsTo` edge in the current frame. -/
def DepState.addDependency (s : DepState) (src tgt : VersionedValue) : DepState :=
  { s with cur := { s.cur with
      flowsToList := s.cur.flowsToList ++ [FlowsTo.mk src tgt] } }

/-- Search the frames in order for a `PointerEquality` whose recorded value
is the queried one, returning its allocation. -/
def findEqualityIn (fs : List DependencyFrame) (v : VersionedValue) :
    Option VersionedAllocation :=
  match fs with
  | [] => none
  | f :: rest =>
      match f.equalityList.findSome? (fun pe => pe.equals v) with
      | some a => some a
      | none => findEqualityIn rest v

/-- Modelled from the spec: `Dependency::resolveAllocation(value)` returns
the allocation the value aliases via `PointerEquality` facts, searching this
frame then the `tail` chain; the null sentinel when the value is not known
to point anywhere. -/
def DepState.resolveAllocation (s : DepState) (v : VersionedValue) :
    Option VersionedAllocation :=
  findEqualityIn s.chain v

/-- Modelled from the spec: `Dependency::stores(allocation)` collects the
values recorded as stored in the allocation across the frame chain; empty
when no `StorageCell` mentions the allocation. -/
def DepState.storesOf (s : DepState) (a : VersionedAllocation) :
    List VersionedValue :=
  (allStores s.chain).filterMap fun sc =>
    if sc.allocation = a then some sc.value else none

/-- Modelled from the spec: `Dependency::registerCallArguments(instr)`
resolves each actual-argument operand to its current `VersionedValue`,
stores the list into `argumentValuesList`, and records the callee. -/
def DepState.registerCallArguments (s : DepState) (calleeId : Nat)
    (argIds : List Nat) : DepState :=
  { s with cur := { s.cur with
      argumentValuesList := argIds.filterMap s.getLatestValue
      callee := some calleeId } }

/-- Modelled from the spec: `Dependency::bindCallArguments()` is invoked in
the callee's freshly pushed frame; for each formal parameter it creates a
fresh `VersionedValue` in the current frame and records a `FlowsTo` edge
from the positionally corresponding argument value registered in the
caller's frame. -/
def DepState.bindCallArguments (s : DepState) (paramIds : List Nat) : DepState :=
  match s.tail with
  | parent :: _ =>
      (parent.argumentValuesList.zip paramIds).foldl
        (fun st p =>
          let r := st.getNewValue p.2
          r.2.addDependency p.1 r.1) s
  | [] => s

/-- Modelled from the spec: the load case of `Dependency::execute` /
`buildLoadDependency`: resolve the address operand to an allocation through
`PointerEquality` facts, look up the values stored there, create a fresh
`VersionedValue` for the load result, and record a `FlowsTo` edge from each
stored value to the result; when no `StorageCell` exists the fresh value is
left without incoming edges. -/
def DepState.executeLoad (s : DepState) (addrId resultId : Nat) : DepState :=
  let stored : List VersionedValue :=
    match s.getLatestValue addrId with
    | some av =>
        match s.resolveAllocation av with
        | some alloc => s.storesOf alloc
        | none => []
    | none => []
  let r := s.getNewValue resultId
  stored.foldl (fun st sv => st.addDependency sv r.1) r.2

/-- Every edge endpoint recorded in the state has a version strictly below
the value counter (all recorded values were created by the counter). -/
def DepState.wfEdges (s : DepState) : Bool :=
  (allFlowsTo s.chain).all fun e =>
    e.source.version < s.valueCounter && e.target.version < s.valueCounter

/-- A construction event: one call of the `VersionedValue` or the
`VersionedAllocation` constructor. -/
inductive MkStep where
  | mkVal (id : Nat)
  | mkAlloc (id : Nat)
  deriving DecidableEq, Repr

/-- Run a sequence of construction events, returning the final state. -/
def runSteps (s : DepState) : List MkStep → DepState
  | [] => s
  | MkStep.mkVal id :: rest => runSteps (s.getNewValue id).2 rest
  | MkStep.mkAlloc id :: rest => runSteps (s.getNewAllocation id).2 rest

theorem runSteps_counters_mono (steps : List MkStep) (s : DepState) :
    s.valueCounter ≤ (runSteps s steps).valueCounter ∧
    s.allocCounter ≤ (runSteps s steps).allocCounter := by
  induction steps generalizing s with
  | nil => exact ⟨Nat.le_refl _, Nat.le_refl _⟩
  | cons st rest ih =>
    cases st with
    | mkVal id =>
        have h := ih (s.getNewValue id).2
        have h1 : (s.getNewValue id).2.valueCounter = s.valueCounter + 1 := rfl
        have h2 : (s.getNewValue id).2.allocCounter = s.allocCounter := rfl
        exact ⟨by simp only [runSteps]; omega, by simp only [runSteps]; omega⟩
    | mkAlloc id =>
        have h := ih (s.getNewAllocation id).2
        have h1 : (s.getNewAllocation id).2.valueCounter = s.valueCounter := rfl
        have h2 : (s.getNewAllocation id).2.allocCounter = s.allocCounter + 1 := rfl
        exact ⟨by simp only [runSteps]; omega, by simp only [runSteps]; omega⟩

/-- C4: of two `VersionedValue`s (resp. `VersionedAllocation`s) constructed
at different times — with any interleaving of further constructions in
between — the later one carries a strictly greater version number, and the
two `nextVersion` counters are independent: constructing an allocation
leaves the value counter unchanged and vice versa. -/
theorem versioned_entity_version_monotonic (s : DepState) (id1 id2 : Nat)
    (steps : List MkStep) :
    (s.getNewValue id1).1.version <
      ((runSteps (s.getNewValue id1).2 steps).getNewValue id2).1.version ∧
    (s.getNewAllocation id1).1.version <
      ((runSteps (s.getNewAllocation id1).2 steps).getNewAllocation id2).1.version ∧
    (s.getNewAllocation id1).2.valueCounter = s.valueCounter ∧
    (s.getNewValue id1).2.allocCounter = s.allocCounter := by
  refine ⟨?_, ?_, rfl, rfl⟩
  · show s.valueCounter < (runSteps (s.getNewValue id1).2 steps).valueCounter
    have h := (runSteps_counters_mono steps (s.getNewValue id1).2).1
    have h1 : (s.getNewValue id1).2.valueCounter = s.valueCounter + 1 := rfl
    omega
  · show s.allocCounter < (runSteps (s.getNewAllocation id1).2 steps).allocCounter
    have h := (runSteps_counters_mono steps (s.getNewAllocation id1).2).2
    have h1 : (s.getNewAllocation id1).2.allocCounter = s.allocCounter + 1 := rfl
    omega

theorem versionOrdered_mem {es : List FlowsTo} (hv : versionOrdered es = true)
    {e : FlowsTo} (h : e ∈ es) : e.source.version < e.target.version := by
  simp only [versionOrdered, List.all_eq_true, decide_eq_true_eq] at hv
  exact hv e h

theorem flowPath_version_lt {es : List FlowsTo} (hv : versionOrdered es = true)
    {a b : VersionedValue} (p : FlowPath es a b) : a.version < b.version := by
  induction p with
  | single h => exact versionOrdered_mem hv h
  | cons h _ ih => exact Nat.lt_trans (versionOrdered_mem hv h) ih

/-- C3: for distinct versioned entities `a` and `b` recorded in a
`Dependency` frame chain whose `FlowsTo` edges all point from a lower to a
higher version, `depends(a, b)` and `depends(b, a)` — the existence of
directed `FlowsTo` paths over the frame and its tail chain — are never both
true, so the reachable dependency graph is acyclic. -/
theorem depends_acyclic (c : DependencyChain) (a b : VersionedValue)
    (hv : versionOrdered (allFlowsTo c) = true) (hab : a ≠ b) :
    ¬(FlowPath (allFlowsTo c) a b ∧ FlowPath (allFlowsTo c) b a) := by
  rintro ⟨p, q⟩
  have h1 := flowPath_version_lt hv p
  have h2 := flowPath_version_lt hv q
  omega

theorem depends_acyclic_witness :
    versionOrdered (allFlowsTo
      [⟨[], none, [], [], [⟨⟨0, 0⟩, ⟨1, 1⟩⟩], [], []⟩]) = true ∧
    (⟨0, 0⟩ : VersionedValue) ≠ ⟨1, 1⟩ ∧
    ¬(FlowPath (allFlowsTo
        [⟨[], none, [], [], [⟨⟨0, 0⟩, ⟨1, 1⟩⟩], [], []⟩]) ⟨0, 0⟩ ⟨1, 1⟩ ∧
      FlowPath (allFlowsTo
        [⟨[], none, [], [], [⟨⟨0, 0⟩, ⟨1, 1⟩⟩], [], []⟩]) ⟨1, 1⟩ ⟨0, 0⟩) :=
  ⟨by decide, by decide, depends_acyclic _ _ _ (by decide) (by decide)⟩

theorem maxVersion_bound {es : List FlowsTo} {e : FlowsTo} (h : e ∈ es) :
    e.source.version ≤ maxVersion es ∧ e.target.version ≤ maxVersion es := by
  induction es with
  | nil => cases h
  | cons e' rest ih =>
      have hm : maxVersion (e' :: rest) =
          max (max e'.source.version e'.target.version) (maxVersion rest) := rfl
      rcases List.mem_cons.mp h with h | h
      · subst h
        constructor <;> omega
      · have := ih h
        constructor <;> omega

theorem dependsFuel_sound {es : List FlowsTo} :
    ∀ {n : Nat} {a b : VersionedValue},
      dependsFuel es n a b = true → FlowPath es a b := by
  intro n
  induction n with
  | zero => intro a b h; simp [dependsFuel] at h
  | succ n ih =>
      intro a b h
      simp only [dependsFuel, List.any_eq_true, Bool.and_eq_true, Bool.or_eq_true,
        decide_eq_true_eq] at h
      obtain ⟨e, he, hsrc, hrest⟩ := h
      rcases hrest with htgt | hfuel
      · have : FlowsTo.mk a b = e := by
          cases e; simp_all
        exact FlowPath.single (this ▸ he)
      · have : FlowsTo.mk a e.target = e := by
          cases e; simp_all
        exact FlowPath.cons (this ▸ he) (ih hfuel)

theorem dependsFuel_complete {es : List FlowsTo} (hv : versionOrdered es = true) :
    ∀ {a b : VersionedValue}, FlowPath es a b →
      ∀ {fuel : Nat}, maxVersion es + 1 - a.version ≤ fuel →
        dependsFuel es fuel a b = true := by
  intro a b p
  induction p with
  | @single a b h =>
      intro fuel hfuel
      have hb := maxVersion_bound h
      dsimp only at hb
      cases fuel with
      | zero => omega
      | succ n =>
          simp only [dependsFuel, List.any_eq_true, Bool.and_eq_true,
            Bool.or_eq_true, decide_eq_true_eq]
          exact ⟨FlowsTo.mk a b, h, rfl, Or.inl rfl⟩
  | @cons a m b h p ih =>
      intro fuel hfuel
      have hm := maxVersion_bound h
      dsimp only at hm
      have hav : a.version < m.version := versionOrdered_mem hv h
      cases fuel with
      | zero => omega
      | succ n =>
          have hn : maxVersion es + 1 - m.version ≤ n := by omega
          simp only [dependsFuel, List.any_eq_true, Bool.and_eq_true,
            Bool.or_eq_true, decide_eq_true_eq]
          exact ⟨FlowsTo.mk a m, h, rfl, Or.inr (ih hn)⟩

/-- C9: over a frame chain whose `FlowsTo` edges all increase the version,
the relation the `depends` traversal recurses along is well-founded, and the
fuel-bounded traversal `chainDepends` — run with fuel `maxVersion + 1` —
terminates with exactly the transitive `FlowsTo`-path relation: the search
needs no more fuel than the largest version number plus one. -/
theorem depends_traversal_terminates (c : DependencyChain)
    (hv : versionOrdered (allFlowsTo c) = true) :
    WellFounded (stepRel (allFlowsTo c)) ∧
    ∀ a b : VersionedValue,
      FlowPath (allFlowsTo c) a b ↔ chainDepends c a b = true := by
  constructor
  · have hsub : ∀ x y : VersionedValue, stepRel (allFlowsTo c) x y →
        InvImage Nat.lt
          (fun v : VersionedValue => maxVersion (allFlowsTo c) + 1 - v.version)
          x y := by
      intro x y h
      have hb := maxVersion_bound h
      dsimp only at hb
      have hxy : y.version < x.version := versionOrdered_mem hv h
      show maxVersion (allFlowsTo c) + 1 - x.version <
        maxVersion (allFlowsTo c) + 1 - y.version
      omega
    exact Subrelation.wf (fun {x y} h => hsub x y h)
      (InvImage.wf _ Nat.lt_wfRel.wf)
  · intro a b
    constructor
    · intro p
      exact dependsFuel_complete hv p (by omega)
    · exact dependsFuel_sound

theorem depends_traversal_terminates_witness :
    versionOrdered (allFlowsTo
      [⟨[], none, [], [], [⟨⟨2, 0⟩, ⟨3, 1⟩⟩, ⟨⟨3, 1⟩, ⟨4, 2⟩⟩], [], []⟩]) = true ∧
    (WellFounded (stepRel (allFlowsTo
        [⟨[], none, [], [], [⟨⟨2, 0⟩, ⟨3, 1⟩⟩, ⟨⟨3, 1⟩, ⟨4, 2⟩⟩], [], []⟩])) ∧
      ∀ a b : VersionedValue,
        FlowPath (allFlowsTo
          [⟨[], none, [], [], [⟨⟨2, 0⟩, ⟨3, 1⟩⟩, ⟨⟨3, 1⟩, ⟨4, 2⟩⟩], [], []⟩]) a b ↔
        chainDepends
          [⟨[], none, [], [], [⟨⟨2, 0⟩, ⟨3, 1⟩⟩, ⟨⟨3, 1⟩, ⟨4, 2⟩⟩], [], []⟩] a b = true) :=
  ⟨by decide, depends_traversal_terminates _ (by decide)⟩

theorem allEqualities_cons (f : DependencyFrame) (rest : List DependencyFrame) :
    allEqualities (f :: rest) = f.equalityList ++ allEqualities rest := rfl

theorem findEqualityIn_eq_none {fs : List DependencyFrame} {v : VersionedValue}
    (h : ∀ pe ∈ allEqualities fs, pe.value ≠ v) : findEqualityIn fs v = none := by
  induction fs with
  | nil => rfl
  | cons f rest ih =>
      have h1 : ∀ pe ∈ f.equalityList, pe.equals v = none := by
        intro pe hpe
        have := h pe (by rw [allEqualities_cons]; exact List.mem_append_left _ hpe)
        simp [PointerEquality.equals, this]
      have h2 : ∀ pe ∈ allEqualities rest, pe.value ≠ v := by
        intro pe hpe
        exact h pe (by rw [allEqualities_cons]; exact List.mem_append_right _ hpe)
      simp only [findEqualityIn]
      rw [List.findSome?_eq_none_iff.mpr h1, ih h2]

/-- C8: lookups for absent facts return the null/empty sentinel:
`PointerEquality::equals` returns null when the queried value is not the
recorded one, `resolveAllocation` returns null when no `PointerEquality`
for the value is recorded in the frame or its tail chain, and `stores`
returns the empty result when no `StorageCell` mentions the allocation. -/
theorem missing_fact_null_sentinels :
    (∀ (pe : PointerEquality) (v : VersionedValue),
        pe.value ≠ v → pe.equals v = none) ∧
    (∀ (s : DepState) (v : VersionedValue),
        (∀ pe ∈ allEqualities s.chain, pe.value ≠ v) →
        s.resolveAllocation v = none) ∧
    (∀ (s : DepState) (a : VersionedAllocation),
        (∀ sc ∈ allStores s.chain, sc.allocation ≠ a) →
        s.storesOf a = []) := by
  refine ⟨?_, ?_, ?_⟩
  · intro pe v h
    simp [PointerEquality.equals, h]
  · intro s v h
    exact findEqualityIn_eq_none h
  · intro s a h
    apply List.filterMap_eq_nil_iff.mpr
    intro sc hsc
    simp [h sc hsc]

theorem missing_fact_null_sentinels_witness :
    (PointerEquality.mk ⟨0, 0⟩ ⟨5, 0⟩).equals ⟨1, 1⟩ = none ∧
    DepState.init.resolveAllocation ⟨1, 1⟩ = none ∧
    DepState.init.storesOf ⟨5, 0⟩ = [] :=
  ⟨missing_fact_null_sentinels.1 _ _ (by decide),
   missing_fact_null_sentinels.2.1 _ _ (by decide),
   missing_fact_null_sentinels.2.2 _ _ (by decide)⟩

theorem storeKeys_coreOnly_subset (m : StateStore) (heap : EntryHeap)
    (ch : List Nat) (x : Nat × (List Nat × TxVariable))
    (h : x ∈ m.filterMap fun kv =>
        match heap.get? kv.2 with
        | some e =>
            if true && !e.content.core then none
            else some (e.address.base, (ch, kv.1))
        | none => none) :
    x ∈ m.filterMap fun kv =>
        match heap.get? kv.2 with
        | some e =>
            if false && !e.content.core then none
            else some (e.address.base, (ch, kv.1))
        | none => none := by
  rw [List.mem_filterMap] at h ⊢
  obtain ⟨kv, hkv, hf⟩ := h
  refine ⟨kv, hkv, ?_⟩
  cases hg : heap.get? kv.2 with
  | none => rw [hg] at hf; exact hf
  | some e =>
      rw [hg] at hf
      simp only [Bool.true_and] at hf
      simp only [Bool.false_and, Bool.false_eq_true, if_false]
      by_cases hc : e.content.core
      · rw [if_neg (by simp [hc])] at hf
        exact hf
      · rw [if_pos (by simp [hc])] at hf
        cases hf

/-- C7: for every store state, entry heap, call history and replacement
set, the keys produced by `getStoredExpressions` with `coreOnly = true`
form a subset of the keys produced with `coreOnly = false`, in both the
concretely-addressed and the symbolically-addressed output maps. -/
theorem getStoredExpressions_coreOnly_subset (s : TxStore) (heap : EntryHeap)
    (callHistory : List Nat) (replacements : List Nat)
    (x : Nat × (List Nat × TxVariable)) :
    (x ∈ (s.getStoredExpressionsKeys heap callHistory replacements true).1 →
      x ∈ (s.getStoredExpressionsKeys heap callHistory replacements false).1) ∧
    (x ∈ (s.getStoredExpressionsKeys heap callHistory replacements true).2 →
      x ∈ (s.getStoredExpressionsKeys heap callHistory replacements false).2) := by
  constructor
  · intro h
    simp only [TxStore.getStoredExpressionsKeys, TxStore.getConcreteStoreKeys] at h ⊢
    exact storeKeys_coreOnly_subset _ _ _ _ h
  · intro h
    simp only [TxStore.getStoredExpressionsKeys, TxStore.getSymbolicStoreKeys] at h ⊢
    exact storeKeys_coreOnly_subset _ _ _ _ h

theorem getStoredExpressions_coreOnly_subset_witness :
    ((7, ([], 5)) : Nat × (List Nat × TxVariable)) ∈
      ((TxStore.mk [(5, 0)] [5] [] []).getStoredExpressionsKeys
        [TxStoreEntry.make ⟨7, 5, true⟩ ⟨1, false⟩ ⟨2, true⟩] [] [] true).1 ∧
    ((7, ([], 5)) : Nat × (List Nat × TxVariable)) ∈
      ((TxStore.mk [(5, 0)] [5] [] []).getStoredExpressionsKeys
        [TxStoreEntry.make ⟨7, 5, true⟩ ⟨1, false⟩ ⟨2, true⟩] [] [] false).1 :=
  ⟨by decide,
   (getStoredExpressions_coreOnly_subset _ _ _ _ _).1 (by decide)⟩

theorem storeBind_lookup (m : StateStore) (k : TxVariable) (i : Nat) :
    (storeBind m k i).lookup k = some i := by
  induction m with
  | nil => simp [storeBind, List.lookup]
  | cons kv rest ih =>
      obtain ⟨k', i'⟩ := kv
      simp only [storeBind]
      by_cases h : k' = k
      · simp [h, List.lookup]
      · simp only [if_neg h, List.lookup]
        have : (k == k') = false := by
          simp [beq_eq_false_iff_ne]
          exact fun hk => h hk.symm
        rw [this]
        exact ih

theorem keysInsert_contains (ks : List TxVariable) (k : TxVariable) :
    (keysInsert ks k).contains k = true := by
  simp only [keysInsert]
  by_cases h : ks.contains k
  · rwa [if_pos h]
  · rw [if_neg h]
    simp [List.elem_iff]

theorem keysInsert_count (ks : List TxVariable) (k : TxVariable) :
    (keysInsert ks k).count k =
      if ks.contains k then ks.count k else ks.count k + 1 := by
  simp only [keysInsert]
  by_cases h : ks.contains k
  · rw [if_pos h, if_pos h]
  · rw [if_neg h, if_neg h, List.count_append]
    simp

theorem contains_count_pos (ks : List TxVariable) (k : TxVariable)
    (h : ks.contains k = true) : 0 < ks.count k := by
  rw [List.count_pos_iff]
  exact List.elem_iff.mp h

/-- C2: after `updateStore(addr, av, v1)` followed by
`updateStore(addr, av, v2)` on the same address — starting from any store
whose key list holds `addr`'s canonical key at most once — looking up
`addr` returns `v2` (the prior entry is replaced, not appended), and the
insertion-ordered key list for `addr`'s partition holds exactly one
occurrence of the canonical key. -/
theorem updateStore_overwrite (s : TxStore) (heap : EntryHeap)
    (loc : TxStateAddress) (av v1 v2 : TxStateValue)
    (hk : (s.keysFor loc).count loc.getInterpolantStyleAddress ≤ 1) :
    (((s.updateStore heap loc av v1).1.updateStore
        (s.updateStore heap loc av v1).2 loc av v2).1.lookupContent
      ((s.updateStore heap loc av v1).1.updateStore
        (s.updateStore heap loc av v1).2 loc av v2).2 loc) = some v2 ∧
    ((((s.updateStore heap loc av v1).1.updateStore
        (s.updateStore heap loc av v1).2 loc av v2).1.keysFor loc).count
      loc.getInterpolantStyleAddress) = 1 := by
  cases hc : loc.concrete with
  | true =>
      constructor
      · simp only [TxStore.updateStore, TxStore.lookupContent, hc, if_pos]
        rw [storeBind_lookup]
        dsimp only
        rw [List.get?_concat_length]
        rfl
      · simp only [TxStore.updateStore, TxStore.keysFor, hc, if_pos] at hk ⊢
        rw [keysInsert_count, keysInsert_count]
        rw [keysInsert_contains]
        simp only [if_pos]
        by_cases h : s.concretelyAddressedStoreKeys.contains
            loc.getInterpolantStyleAddress
        · rw [if_pos h]
          have := contains_count_pos _ _ h
          omega
        · rw [if_neg h]
          have : s.concretelyAddressedStoreKeys.count
              loc.getInterpolantStyleAddress = 0 := by
            rw [List.count_eq_zero]
            intro hm
            exact h (List.elem_iff.mpr hm)
          omega
  | false =>
      constructor
      · simp only [TxStore.updateStore, TxStore.lookupContent, hc,
          Bool.false_eq_true, if_false]
        rw [storeBind_lookup]
        dsimp only
        rw [List.get?_concat_length]
        rfl
      · simp only [TxStore.updateStore, TxStore.keysFor, hc,
          Bool.false_eq_true, if_false] at hk ⊢
        rw [keysInsert_count, keysInsert_count]
        rw [keysInsert_contains]
        simp only [if_pos]
        by_cases h : s.symbolicallyAddressedStoreKeys.contains
            loc.getInterpolantStyleAddress
        · rw [if_pos h]
          have := contains_count_pos _ _ h
          omega
        · rw [if_neg h]
          have : s.symbolicallyAddressedStoreKeys.count
              loc.getInterpolantStyleAddress = 0 := by
            rw [List.count_eq_zero]
            intro hm
            exact h (List.elem_iff.mpr hm)
          omega

theorem updateStore_overwrite_witness :
    ((TxStore.empty.keysFor ⟨7, 5, true⟩).count
        (TxStateAddress.getInterpolantStyleAddress ⟨7, 5, true⟩) ≤ 1) ∧
    (((TxStore.empty.updateStore [] ⟨7, 5, true⟩ ⟨1, false⟩ ⟨2, false⟩).1.updateStore
        (TxStore.empty.updateStore [] ⟨7, 5, true⟩ ⟨1, false⟩ ⟨2, false⟩).2
        ⟨7, 5, true⟩ ⟨1, false⟩ ⟨3, true⟩).1.lookupContent
      ((TxStore.empty.updateStore [] ⟨7, 5, true⟩ ⟨1, false⟩ ⟨2, false⟩).1.updateStore
        (TxStore.empty.updateStore [] ⟨7, 5, true⟩ ⟨1, false⟩ ⟨2, false⟩).2
        ⟨7, 5, true⟩ ⟨1, false⟩ ⟨3, true⟩).2 ⟨7, 5, true⟩) = some ⟨3, true⟩ ∧
    ((((TxStore.empty.updateStore [] ⟨7, 5, true⟩ ⟨1, false⟩ ⟨2, false⟩).1.updateStore
        (TxStore.empty.updateStore [] ⟨7, 5, true⟩ ⟨1, false⟩ ⟨2, false⟩).2
        ⟨7, 5, true⟩ ⟨1, false⟩ ⟨3, true⟩).1.keysFor ⟨7, 5, true⟩).count
      (TxStateAddress.getInterpolantStyleAddress ⟨7, 5, true⟩)) = 1 :=
  ⟨by decide,
   (updateStore_overwrite TxStore.empty [] ⟨7, 5, true⟩ ⟨1, false⟩ ⟨2, false⟩
      ⟨3, true⟩ (by decide)).1,
   (updateStore_overwrite TxStore.empty [] ⟨7, 5, true⟩ ⟨1, false⟩ ⟨2, false⟩
      ⟨3, true⟩ (by decide)).2⟩

/-- C1: evaluating the copy constructor on a source store holding one
concretely-addressed entry under canonical key 5 (source key vector `[5]`):
the two maps are duplicated with the entry shared, and the shared entry's
`refCount` grows by one for the new holder, but the copy's key vector is
default-constructed empty — the initializer list of
`TxStore(const TxStore &)` names only the two maps — so the copy's key
lists do not equal the source's key lists. -/
theorem txStore_copy_constructor_eval :
    ((TxStore.mk [(5, 0)] [5] [] []).copyCtor
        [TxStoreEntry.make ⟨7, 5, true⟩ ⟨1, false⟩ ⟨2, false⟩]).1.concretelyAddressedStore
      = [(5, 0)] ∧
    ((TxStore.mk [(5, 0)] [5] [] []).copyCtor
        [TxStoreEntry.make ⟨7, 5, true⟩ ⟨1, false⟩ ⟨2, false⟩]).1.symbolicallyAddressedStore
      = [] ∧
    ((TxStore.mk [(5, 0)] [5] [] []).copyCtor
        [TxStoreEntry.make ⟨7, 5, true⟩ ⟨1, false⟩ ⟨2, false⟩]).2
      = [TxStoreEntry.mk 1 ⟨7, 5, true⟩ ⟨1, false⟩ ⟨2, false⟩] ∧
    ((TxStore.mk [(5, 0)] [5] [] []).copyCtor
        [TxStoreEntry.make ⟨7, 5, true⟩ ⟨1, false⟩ ⟨2, false⟩]).1.concretelyAddressedStoreKeys
      = [] ∧
    ((TxStore.mk [(5, 0)] [5] [] []).copyCtor
        [TxStoreEntry.make ⟨7, 5, true⟩ ⟨1, false⟩ ⟨2, false⟩]).1.concretelyAddressedStoreKeys
      ≠ (TxStore.mk [(5, 0)] [5] [] []).concretelyAddressedStoreKeys := by
  decide

theorem flowPath_inv {es : List FlowsTo} {a b : VersionedValue}
    (p : FlowPath es a b) :
    ∃ e ∈ es, e.source = a ∧ (e.target = b ∨ FlowPath es e.target b) := by
  cases p with
  | single h => exact ⟨_, h, rfl, Or.inl rfl⟩
  | cons h q => exact ⟨_, h, rfl, Or.inr q⟩

/-- C5: after `registerCallArguments` records the actual arguments
`[a1, a2]` and, in the callee's freshly pushed frame, `bindCallArguments`
binds them to the formal parameters `[p1, p2]`, each argument value flows
to its positionally corresponding parameter value and not to the other:
`depends(a1, p1)` and `depends(a2, p2)` hold while `depends(a1, p2)` does
not. -/
theorem call_argument_binding (ia1 ia2 icall ip1 ip2 : Nat) (hne : ia1 ≠ ia2) :
    FlowPath (allFlowsTo (((((DepState.init.getNewValue ia1).2.getNewValue
        ia2).2.registerCallArguments icall
        [ia1, ia2]).pushFrame.bindCallArguments [ip1, ip2]).chain))
      ⟨ia1, 0⟩ ⟨ip1, 2⟩ ∧
    FlowPath (allFlowsTo (((((DepState.init.getNewValue ia1).2.getNewValue
        ia2).2.registerCallArguments icall
        [ia1, ia2]).pushFrame.bindCallArguments [ip1, ip2]).chain))
      ⟨ia2, 1⟩ ⟨ip2, 3⟩ ∧
    ¬FlowPath (allFlowsTo (((((DepState.init.getNewValue ia1).2.getNewValue
        ia2).2.registerCallArguments icall
        [ia1, ia2]).pushFrame.bindCallArguments [ip1, ip2]).chain))
      ⟨ia1, 0⟩ ⟨ip2, 3⟩ := by
  have hb : (ia2 == ia1) = false := by
    simp only [beq_eq_false_iff_ne, ne_eq]
    exact fun h => hne h.symm
  have hedges : allFlowsTo (((((DepState.init.getNewValue ia1).2.getNewValue
        ia2).2.registerCallArguments icall
        [ia1, ia2]).pushFrame.bindCallArguments [ip1, ip2]).chain) =
      [FlowsTo.mk ⟨ia1, 0⟩ ⟨ip1, 2⟩, FlowsTo.mk ⟨ia2, 1⟩ ⟨ip2, 3⟩] := by
    simp [DepState.init, DepState.getNewValue, DepState.registerCallArguments,
      DepState.getLatestValue, findValueIn, DepState.pushFrame,
      DepState.bindCallArguments, DepState.addDependency, DepState.chain,
      allFlowsTo, DependencyFrame.empty, hb, List.find?]
  rw [hedges]
  refine ⟨?_, ?_, ?_⟩
  · exact FlowPath.single (List.mem_cons_self _ _)
  · exact FlowPath.single (List.mem_cons_of_mem _ (List.mem_cons_self _ _))
  · intro p
    rcases flowPath_inv p with ⟨e, he, hsrc, hrest⟩
    rcases List.mem_cons.mp he with rfl | he2
    · rcases hrest with htgt | q
      · simp at htgt
      · rcases flowPath_inv q with ⟨e', he', hsrc', _⟩
        rcases List.mem_cons.mp he' with rfl | he2'
        · simp at hsrc'
        · rcases List.mem_singleton.mp he2' with rfl
          simp at hsrc'
    · rcases List.mem_singleton.mp he2 with rfl
      simp at hsrc

theorem call_argument_binding_witness :
    (0 : Nat) ≠ 1 ∧
    (FlowPath (allFlowsTo (((((DepState.init.getNewValue 0).2.getNewValue
        1).2.registerCallArguments 2 [0, 1]).pushFrame.bindCallArguments
        [3, 4]).chain)) ⟨0, 0⟩ ⟨3, 2⟩ ∧
     FlowPath (allFlowsTo (((((DepState.init.getNewValue 0).2.getNewValue
        1).2.registerCallArguments 2 [0, 1]).pushFrame.bindCallArguments
        [3, 4]).chain)) ⟨1, 1⟩ ⟨4, 3⟩ ∧
     ¬FlowPath (allFlowsTo (((((DepState.init.getNewValue 0).2.getNewValue
        1).2.registerCallArguments 2 [0, 1]).pushFrame.bindCallArguments
        [3, 4]).chain)) ⟨0, 0⟩ ⟨4, 3⟩) :=
  ⟨by decide, call_argument_binding 0 1 2 3 4 (by decide)⟩

/-- C6: executing a load whose address resolves to an allocation with no
previously recorded `StorageCell` — in a state all of whose recorded
`FlowsTo` endpoints predate the value counter — creates a fresh
`VersionedValue` for the load result that has no incoming `FlowsTo` edge
at all (in particular none from any `StorageCell`-derived source): the
loaded value is an independent root. -/
theorem load_miss_independence (s : DepState) (addrId resultId : Nat)
    (hwf : s.wfEdges = true)
    (hmiss : ∀ av alloc, s.getLatestValue addrId = some av →
        s.resolveAllocation av = some alloc → s.storesOf alloc = []) :
    ∀ e ∈ allFlowsTo (s.executeLoad addrId resultId).chain,
      e.target ≠ ⟨resultId, s.valueCounter⟩ := by
  have hstate : s.executeLoad addrId resultId = (s.getNewValue resultId).2 := by
    simp only [DepState.executeLoad]
    cases hM : s.getLatestValue addrId with
    | none => rfl
    | some av =>
        dsimp only
        cases hR : s.resolveAllocation av with
        | none => rfl
        | some alloc =>
            dsimp only
            rw [hmiss av alloc hM hR]
            rfl
  rw [hstate]
  have hsame : allFlowsTo (s.getNewValue resultId).2.chain =
      allFlowsTo s.chain := rfl
  rw [hsame]
  intro e he heq
  simp only [DepState.wfEdges, List.all_eq_true, Bool.and_eq_true,
    decide_eq_true_eq] at hwf
  have hlt := (hwf e he).2
  rw [heq] at hlt
  exact Nat.lt_irrefl _ hlt

theorem load_miss_independence_witness :
    DepState.init.wfEdges = true ∧
    ∀ e ∈ allFlowsTo (DepState.init.executeLoad 0 1).chain,
      e.target ≠ ⟨1, DepState.init.valueCounter⟩ :=
  ⟨rfl, load_miss_independence DepState.init 0 1 rfl
      (fun av alloc h _ => Option.noConfusion h)⟩
